import Mathlib

/-!
Formal model of the braintools repository: the learning-rate scheduler family
(braintools/optim/_lr_scheduler.py) and the correlation / synchronization
metrics (braintools/metric/_correlation.py).

Arrays are modelled over exact rationals.  The transcendental primitives of
the numeric backend — cos(pi*x), power with a non-integer exponent, log and
sqrt — are uninterpreted function parameters, so every theorem quantifies
over them; everything else is translated directly from the Python source.
-/

namespace Braintools

/-- Uninterpreted transcendental primitives of the numeric backend:
`cosPi x` models `cos(pi * x)`, `rpow x y` models `x ** y` with a
possibly non-integer exponent `y`, `log` models `jnp.log`. -/
structure NumOps where
  cosPi : ℚ → ℚ
  rpow : ℚ → ℚ → ℚ
  log : ℚ → ℚ

/-- The mutable counters of a `LearningRateScheduler` instance:
`last_epoch` (every scheduler) and `last_call` (only read by the
`CallBasedLRScheduler` subclasses). -/
structure SchedState where
  last_epoch : ℤ
  last_call : ℤ
deriving DecidableEq

/-- The closed family of scheduler variants, one constructor per concrete
class of `_lr_scheduler.py`, each holding the immutable parameters kept on
the instance after construction. -/
inductive Scheduler where
  | constantLR (lr : ℚ)
  | stepLR (lr : ℚ) (step_size : ℤ) (gamma : ℚ)
  | multiStepLR (lr : ℚ) (milestones : List ℤ) (gamma : ℚ)
  | cosineAnnealingLR (lr : ℚ) (T_max : ℤ) (eta_min : ℚ)
  | cosineAnnealingWarmRestarts (lr : ℚ) (num_call_per_epoch : ℤ) (T_0 : ℤ)
      (T_mult : ℤ) (eta_min : ℚ)
  | exponentialLR (lr : ℚ) (gamma : ℚ)
  | exponentialDecayLR (lr : ℚ) (decay_steps : ℚ) (decay_rate : ℚ)
  | inverseTimeDecayLR (lr : ℚ) (decay_steps : ℚ) (decay_rate : ℚ) (staircase : Bool)
  | polynomialDecayLR (lr : ℚ) (decay_steps : ℚ) (final_lr : ℚ) (power : ℚ)
  | piecewiseConstantLR (boundaries : List ℤ) (values : List ℚ)

/-- Whether the variant is a `CallBasedLRScheduler` (owns a `last_call`
counter that `step_call` advances). -/
def Scheduler.isCallBased : Scheduler → Bool
  | .cosineAnnealingWarmRestarts _ _ _ _ _ => true
  | .exponentialDecayLR _ _ _ => true
  | .inverseTimeDecayLR _ _ _ _ => true
  | .polynomialDecayLR _ _ _ _ => true
  | .piecewiseConstantLR _ _ => true
  | _ => false

/-- `LearningRateScheduler.step_epoch`: increments the epoch counter. -/
def Scheduler.step_epoch (_ : Scheduler) (st : SchedState) : SchedState :=
  { st with last_epoch := st.last_epoch + 1 }

/-- `step_call`: the base class body is `pass`; only the call-based
subclasses override it to increment `last_call`. -/
def Scheduler.step_call (s : Scheduler) (st : SchedState) : SchedState :=
  if s.isCallBased then { st with last_call := st.last_call + 1 } else st

/-- `jnp.argmax` over a boolean vector: index of the first `True`,
and 0 when no entry is `True`. -/
def argmaxBool (l : List Bool) : ℕ :=
  if l.any (fun b => b) then l.findIdx (fun b => b) else 0

/-- `MultiStepLR.__call__` index computation: milestones get sentinels
`-1` and `iinfo(int32).max` appended, and `p` is the argmax of the
interval-membership conditions. -/
def multiStepIndex (milestones : List ℤ) (i : ℤ) : ℕ :=
  let ms := (-1 : ℤ) :: (milestones ++ [(2147483647 : ℤ)])
  argmaxBool ((List.range (ms.length - 1)).map
    (fun k => decide (ms.getD k 0 ≤ i) && decide (i < ms.getD (k + 1) 0)))

/-- The default step used by `__call__` when `i is None`: `last_call + 1`
for call-based variants, `last_epoch + 1` otherwise. -/
def Scheduler.defaultStep (s : Scheduler) (st : SchedState) : ℤ :=
  if s.isCallBased then st.last_call + 1 else st.last_epoch + 1

/-- `__call__(i=None)` of each scheduler variant, translated clause by
clause from the source.  The Python bodies only read the counters (for the
default step) and assign nothing, so the returned state is the input state. -/
def Scheduler.call (ops : NumOps) (s : Scheduler) (st : SchedState)
    (i? : Option ℤ) : ℚ × SchedState :=
  match s with
  | .constantLR lr => (lr, st)
  | .stepLR lr step_size gamma =>
      let i := i?.getD (st.last_epoch + 1)
      (lr * gamma ^ (Int.fdiv i step_size), st)
  | .multiStepLR lr milestones gamma =>
      let i := i?.getD (st.last_epoch + 1)
      (lr * gamma ^ (multiStepIndex milestones i), st)
  | .cosineAnnealingLR lr T_max eta_min =>
      let i := i?.getD (st.last_epoch + 1)
      (eta_min + (lr - eta_min) * (1 + ops.cosPi ((i : ℚ) / (T_max : ℚ))) / 2, st)
  | .cosineAnnealingWarmRestarts lr n T_0 T_mult eta_min =>
      let i := i?.getD (st.last_call + 1)
      let epoch : ℤ := ⌊(i : ℚ) / (n : ℚ)⌋
      let tcti : ℚ × ℚ :=
        if T_0 ≤ epoch then
          if T_mult = 1 then (((epoch % T_0 : ℤ) : ℚ), (T_0 : ℚ))
          else
            let nn : ℚ :=
              ((⌊ops.log ((epoch : ℚ) / (T_0 : ℚ) * ((T_mult : ℚ) - 1) + 1)
                  / ops.log (T_mult : ℚ)⌋ : ℤ) : ℚ)
            ((epoch : ℚ) - (T_0 : ℚ) * (ops.rpow (T_mult : ℚ) nn - 1) / ((T_mult : ℚ) - 1),
             (T_0 : ℚ) * ops.rpow (T_mult : ℚ) nn)
        else ((epoch : ℚ), (T_0 : ℚ))
      (eta_min + (lr - eta_min) * (1 + ops.cosPi (tcti.1 / tcti.2)) / 2, st)
  | .exponentialLR lr gamma =>
      let i := i?.getD (st.last_epoch + 1)
      (lr * gamma ^ i, st)
  | .exponentialDecayLR lr decay_steps decay_rate =>
      let i := i?.getD (st.last_call + 1)
      (lr * ops.rpow decay_rate ((i : ℚ) / decay_steps), st)
  | .inverseTimeDecayLR lr decay_steps decay_rate staircase =>
      let i := i?.getD (st.last_call + 1)
      (if staircase then lr / (1 + decay_rate * ((⌊(i : ℚ) / decay_steps⌋ : ℤ) : ℚ))
       else lr / (1 + decay_rate * (i : ℚ) / decay_steps), st)
  | .polynomialDecayLR lr decay_steps final_lr power =>
      let i := i?.getD (st.last_call + 1)
      let i' : ℚ := min (i : ℚ) decay_steps
      (ops.rpow (1 - i' / decay_steps) power * (lr - final_lr) + final_lr, st)
  | .piecewiseConstantLR boundaries values =>
      let i := i?.getD (st.last_call + 1)
      (values.getD (boundaries.countP (fun b => b < i)) 0, st)

/-- `PiecewiseConstantLR.__init__` validation: the inputs are 1-D by
representation (Lean lists), so the rank check always passes; the length
check `boundaries.shape[0] == values.shape[0] - 1` (Python integers, hence
over ℤ) raises `ValueError` when violated. -/
def mkPiecewiseConstantLR (boundaries : List ℤ) (values : List ℚ) :
    Except String Scheduler :=
  if (boundaries.length : ℤ) = (values.length : ℤ) - 1 then
    Except.ok (Scheduler.piecewiseConstantLR boundaries values)
  else
    Except.error "boundaries length must be one shorter than values length"

/-- A concrete instantiation of the uninterpreted numeric primitives, used
only to evaluate the model at concrete inputs. -/
def zeroOps : NumOps := ⟨fun _ => 0, fun _ _ => 0, fun _ => 0⟩

/-! ## Correlation metrics (braintools/metric/_correlation.py)

Matrices are functions `ℕ → ℕ → ℚ` with explicit dimensions; 1-D arrays
are lists.  `jnp.sqrt` is an uninterpreted parameter `sq : ℚ → ℚ`. -/

/-- The two evaluation strategies of `cross_correlation` /
`voltage_fluctuation`: a sequential `for_loop` accumulation or a `vmap`. -/
inductive CCMethod where
  | loop
  | vmap

/-- `jnp.mean` over the first `T` entries of a signal. -/
def vmean (T : ℕ) (f : ℕ → ℚ) : ℚ := (∑ t ∈ Finset.range T, f t) / T

/-- `_f_signal(signal) = jnp.mean(signal * signal) - jnp.mean(signal) ** 2`. -/
def f_signal (T : ℕ) (signal : ℕ → ℚ) : ℚ :=
  vmean T (fun t => signal t * signal t) - (vmean T signal) ^ 2

/-- `jnp.mean(potentials, axis=1)`: the population average signal. -/
def popAvg (V : ℕ → ℕ → ℚ) (N : ℕ) (t : ℕ) : ℚ := (∑ n ∈ Finset.range N, V t n) / N

/-- `voltage_fluctuation(potentials, method)` on a `(T, N)` potentials
matrix `V`: variance of the per-time population average over the mean of
the per-neuron variances, with `jnp.where(var_mean == 0, 1, ...)`. -/
def voltage_fluctuation (method : CCMethod) (V : ℕ → ℕ → ℚ) (T N : ℕ) : ℚ :=
  let avg := popAvg V N
  let avg_var := vmean T (fun t => avg t * avg t) - (vmean T avg) ^ 2
  let vars : List ℚ :=
    match method with
    | .loop => (List.range N).foldl (fun acc n => acc ++ [f_signal T (fun t => V t n)]) []
    | .vmap => (List.range N).map (fun n => f_signal T (fun t => V t n))
  let var_mean := vars.sum / vars.length
  if var_mean = 0 then 1 else avg_var / var_mean

/-- The textbook population variance `(1/T) * sum ((f t - mean f) ^ 2)`,
following the spec text; the source computes `mean (f ^ 2) - (mean f) ^ 2`. -/
def specVariance (T : ℕ) (f : ℕ → ℚ) : ℚ :=
  (∑ t ∈ Finset.range T, (f t - vmean T f) ^ 2) / T

/-- `voltage_fluctuation` as the spec words it: population-average-signal
variance divided by the mean per-neuron variance, defined as 1 when the
latter is exactly 0. -/
def specVoltageFluctuation (V : ℕ → ℕ → ℚ) (T N : ℕ) : ℚ :=
  let den := (∑ n ∈ Finset.range N, specVariance T (fun t => V t n)) / N
  if den = 0 then 1 else specVariance T (popAvg V N) / den

/-- One cell of the zero-padded, transposed and reshaped spike array summed
over the bin axis: the spike count of neuron `n` in bin `b` (`bs` is the
bin size, `T` the unpadded time length; padding rows are zero). -/
def binnedSum (spikes : ℕ → ℕ → ℚ) (T bs n b : ℕ) : ℚ :=
  ∑ k ∈ Finset.range bs, (if b * bs + k < T then spikes (b * bs + k) n else 0)

/-- `states` after `jnp.sum(..., axis=2) > 0` cast to float: the binarized
binned activity of neuron `n` in bin `b`. -/
def binnedAct (spikes : ℕ → ℕ → ℚ) (T bs n b : ℕ) : ℚ :=
  if 0 < binnedSum spikes T bs n b then 1 else 0

/-- The per-pair coherence `_f(i, j)` of `cross_correlation`: 0 when
`sqrt(sum(states[i]) * sum(states[j]))` is 0, else the zero-lag dot product
divided by that square root (`nb` is the number of bins). -/
def pairCC (sq : ℚ → ℚ) (spikes : ℕ → ℕ → ℚ) (T bs nb : ℕ) (i j : ℕ) : ℚ :=
  let si := ∑ b ∈ Finset.range nb, binnedAct spikes T bs i b
  let sj := ∑ b ∈ Finset.range nb, binnedAct spikes T bs j b
  let sqrt_ij := sq (si * sj)
  if sqrt_ij = 0 then 0
  else (∑ b ∈ Finset.range nb, binnedAct spikes T bs i b * binnedAct spikes T bs j b) / sqrt_ij

/-- `jnp.tril_indices(N, k=-1)` as the row-major list of pairs `(i, j)`
with `j < i < N`. -/
def trilPairs (N : ℕ) : List (ℕ × ℕ) :=
  (List.range N).flatMap (fun i => (List.range i).map (fun j => (i, j)))

/-- `cross_correlation(spikes, bin, dt, method)` on a `(T, N)` spike matrix:
`bin_size = int(bin / dt)`, `num_bin = ceil(T / bin_size)`, zero-pad,
reshape, binarize, evaluate `_f` on all lower-triangle pairs (sequentially
for `loop`, mapped for `vmap`) and return `jnp.mean` of the results. -/
def cross_correlation (method : CCMethod) (sq : ℚ → ℚ) (spikes : ℕ → ℕ → ℚ)
    (T N : ℕ) (bin dt : ℚ) : ℚ :=
  let bs : ℕ := (⌊bin / dt⌋).toNat
  let nb : ℕ := (⌈(T : ℚ) / (bs : ℚ)⌉).toNat
  let f := fun (p : ℕ × ℕ) => pairCC sq spikes T bs nb p.1 p.2
  let res : List ℚ :=
    match method with
    | .loop => (trilPairs N).foldl (fun acc p => acc ++ [f p]) []
    | .vmap => (trilPairs N).map f
  res.sum / res.length

/-- The unordered lower-triangle pairs `(i, j)`, `j < i < N`, as a Finset. -/
def pairsFinset (N : ℕ) : Finset (ℕ × ℕ) :=
  (Finset.range N ×ˢ Finset.range N).filter (fun p => p.2 < p.1)

/-- Binned-and-binarized activity as the spec words it: 1 exactly when
neuron `n` spikes anywhere in the time window `[b * bs, (b+1) * bs) ∩ [0, T)`
of the unpadded matrix. -/
def specBinned (spikes : ℕ → ℕ → ℚ) (T bs n b : ℕ) : ℚ :=
  if 0 < ∑ t ∈ Finset.Ico (b * bs) (min ((b + 1) * bs) T), spikes t n then 1 else 0

/-- Number of bins as the spec words it: the time length is zero-padded to
the next multiple of the bin size. -/
def specNumBins (T bs : ℕ) : ℕ := if bs ∣ T then T / bs else T / bs + 1

/-- `cross_correlation` as the spec words it: for every unordered pair
`(i, j)` with `i > j`, the guarded normalized dot product of the binarized
binned activities, averaged over all such pairs. -/
def specCrossCorrelation (sq : ℚ → ℚ) (spikes : ℕ → ℕ → ℚ)
    (T N : ℕ) (bin dt : ℚ) : ℚ :=
  let bs : ℕ := (⌊bin / dt⌋).toNat
  let nb : ℕ := specNumBins T bs
  let value := fun (p : ℕ × ℕ) =>
    let si := ∑ b ∈ Finset.range nb, specBinned spikes T bs p.1 b
    let sj := ∑ b ∈ Finset.range nb, specBinned spikes T bs p.2 b
    let dot := ∑ b ∈ Finset.range nb, specBinned spikes T bs p.1 b * specBinned spikes T bs p.2 b
    let norm := sq (si * sj)
    if norm = 0 then 0 else dot / norm
  (∑ p ∈ pairsFinset N, value p) / (pairsFinset N).card

/-- Elementwise binary operation on 1-D arrays with numpy broadcasting:
equal lengths act elementwise, a length-1 operand broadcasts over the
other, and any other length combination raises a shape error. -/
def bcast2 (op : ℚ → ℚ → ℚ) (a b : List ℚ) : Except String (List ℚ) :=
  if a.length = b.length then Except.ok (List.zipWith op a b)
  else if a.length = 1 then Except.ok (b.map (fun y => op (a.getD 0 0) y))
  else if b.length = 1 then Except.ok (a.map (fun x => op x (b.getD 0 0)))
  else Except.error "operands could not be broadcast together"

/-- `_weighted_mean(x, w) = jnp.sum(x * w) / jnp.sum(w)`. -/
def weighted_mean (x w : List ℚ) : Except String ℚ :=
  (bcast2 (· * ·) x w).map (fun xw => xw.sum / w.sum)

/-- `_weighted_cov(x, y, w) = jnp.sum(w * (x - mean) * (y - mean)) / jnp.sum(w)`,
with the subexpressions evaluated in Python order. -/
def weighted_cov (x y w : List ℚ) : Except String ℚ := do
  let mx ← weighted_mean x w
  let t1 ← bcast2 (· * ·) w (x.map (fun v => v - mx))
  let my ← weighted_mean y w
  let t2 ← bcast2 (· * ·) t1 (y.map (fun v => v - my))
  return t2.sum / w.sum

/-- `weighted_correlation(x, y, w)`: the three rank checks pass by
representation (inputs are 1-D lists), then
`cov(x,y,w) / sqrt(cov(x,x,w) * cov(y,y,w))`. -/
def weighted_correlation (sq : ℚ → ℚ) (x y w : List ℚ) : Except String ℚ := do
  let cxy ← weighted_cov x y w
  let cxx ← weighted_cov x x w
  let cyy ← weighted_cov y y w
  return cxy / sq (cxx * cyy)

/-- `jnp.mean` of a list. -/
def listMean (x : List ℚ) : ℚ := x.sum / x.length

/-- Population covariance `(1/n) * sum ((x_i - mean x) * (y_i - mean y))`,
the building block of the unweighted Pearson coefficient the spec refers to. -/
def sampleCov (x y : List ℚ) : ℚ :=
  (List.zipWith (fun a b => (a - listMean x) * (b - listMean y)) x y).sum / x.length

/-- The unweighted Pearson correlation coefficient, following the spec
words, with the same uninterpreted square root as the source model. -/
def pearson (sq : ℚ → ℚ) (x y : List ℚ) : ℚ :=
  sampleCov x y / sq (sampleCov x x * sampleCov y y)

/-- An instantiation of the uninterpreted `jnp.sqrt` for concrete
evaluation: it agrees with the real square root on every rational whose
numerator and denominator are perfect squares (in particular
`ratSqrt 2500 = 50`). -/
def ratSqrt (q : ℚ) : ℚ := (Nat.sqrt q.num.toNat : ℚ) / (Nat.sqrt q.den : ℚ)

/-- C9: on every scheduler variant, `__call__` (with an explicit step or the
defaulted one) leaves the state unchanged, its result at an explicit step
does not depend on the state, and the defaulted call equals the explicit
call at the tracked last index plus one. -/
theorem scheduler_call_is_pure (ops : NumOps) (s : Scheduler) (st st' : SchedState) (i : ℤ) :
    (s.call ops st none).2 = st ∧
    (s.call ops st (some i)).2 = st ∧
    (s.call ops st (some i)).1 = (s.call ops st' (some i)).1 ∧
    (s.call ops st none).1 = (s.call ops st (some (s.defaultStep st))).1 := by
  cases s <;> exact ⟨rfl, rfl, rfl, rfl⟩

/-- C10: on the epoch-based variants (Constant, Step, MultiStep,
CosineAnnealing, Exponential), `step_call` is a no-op: the state is
returned unchanged. -/
theorem epoch_based_step_call_noop (lr gamma eta_min : ℚ) (step_size T_max : ℤ)
    (milestones : List ℤ) (st : SchedState) :
    (Scheduler.constantLR lr).step_call st = st ∧
    (Scheduler.stepLR lr step_size gamma).step_call st = st ∧
    (Scheduler.multiStepLR lr milestones gamma).step_call st = st ∧
    (Scheduler.cosineAnnealingLR lr T_max eta_min).step_call st = st ∧
    (Scheduler.exponentialLR lr gamma).step_call st = st :=
  ⟨rfl, rfl, rfl, rfl, rfl⟩

/-- C4: a PiecewiseConstant scheduler with boundaries one shorter than
values constructs successfully, `evaluate(i)` returns `values[k]` with `k`
the number of boundaries strictly below `i` (in particular the three
documented examples), and a length mismatch fails construction. -/
theorem piecewiseConstantLR_spec (ops : NumOps) (bs bs' : List ℤ) (vs vs' : List ℚ)
    (st : SchedState) (i : ℤ)
    (hlen : (bs.length : ℤ) = (vs.length : ℤ) - 1)
    (hbad : (bs'.length : ℤ) ≠ (vs'.length : ℤ) - 1) :
    mkPiecewiseConstantLR bs vs = Except.ok (Scheduler.piecewiseConstantLR bs vs) ∧
    ((Scheduler.piecewiseConstantLR bs vs).call ops st (some i)).1
      = vs.getD ((bs.filter (fun b => b < i)).length) 0 ∧
    (∃ msg, mkPiecewiseConstantLR bs' vs' = Except.error msg) ∧
    ((Scheduler.piecewiseConstantLR [10, 20] [1/10, 1/100, 1/1000]).call ops st (some 5)).1 = 1/10 ∧
    ((Scheduler.piecewiseConstantLR [10, 20] [1/10, 1/100, 1/1000]).call ops st (some 15)).1 = 1/100 ∧
    ((Scheduler.piecewiseConstantLR [10, 20] [1/10, 1/100, 1/1000]).call ops st (some 25)).1 = 1/1000 := by
  refine ⟨?_, ?_, ?_, ?_, ?_, ?_⟩
  · rw [mkPiecewiseConstantLR, if_pos hlen]
  · simp [Scheduler.call, List.countP_eq_length_filter]
  · rw [mkPiecewiseConstantLR, if_neg hbad]; exact ⟨_, rfl⟩
  · rfl
  · rfl
  · rfl

/-- Witness for C4 at boundaries `[10, 20]`, values `[0.1, 0.01, 0.001]`,
step 15, and the mismatched pair `[5] / [1]`. -/
theorem piecewiseConstantLR_spec_witness :
    (((([10, 20] : List ℤ).length : ℤ) = ((([1/10, 1/100, 1/1000]) : List ℚ).length : ℤ) - 1) ∧
     ((([5] : List ℤ).length : ℤ) ≠ ((([1]) : List ℚ).length : ℤ) - 1)) ∧
    (mkPiecewiseConstantLR [10, 20] [1/10, 1/100, 1/1000]
       = Except.ok (Scheduler.piecewiseConstantLR [10, 20] [1/10, 1/100, 1/1000]) ∧
     ((Scheduler.piecewiseConstantLR [10, 20] [1/10, 1/100, 1/1000]).call zeroOps ⟨-1, -1⟩ (some 15)).1
       = ([1/10, 1/100, 1/1000] : List ℚ).getD ((([10, 20] : List ℤ).filter (fun b => b < 15)).length) 0 ∧
     (∃ msg, mkPiecewiseConstantLR [5] [1] = Except.error msg) ∧
     ((Scheduler.piecewiseConstantLR [10, 20] [1/10, 1/100, 1/1000]).call zeroOps ⟨-1, -1⟩ (some 5)).1 = 1/10 ∧
     ((Scheduler.piecewiseConstantLR [10, 20] [1/10, 1/100, 1/1000]).call zeroOps ⟨-1, -1⟩ (some 15)).1 = 1/100 ∧
     ((Scheduler.piecewiseConstantLR [10, 20] [1/10, 1/100, 1/1000]).call zeroOps ⟨-1, -1⟩ (some 25)).1 = 1/1000) :=
  ⟨⟨by decide, by decide⟩,
   piecewiseConstantLR_spec zeroOps [10, 20] [5] [1/10, 1/100, 1/1000] [1] ⟨-1, -1⟩ 15
     (by decide) (by decide)⟩

/-- Sequentially accumulating `g` over a list (the `for_loop` strategy)
builds exactly the mapped list. -/
theorem foldl_append_eq_map {α β : Type} (g : α → β) (l : List α) :
    l.foldl (fun acc x => acc ++ [g x]) [] = l.map g := by
  suffices h : ∀ acc : List β, l.foldl (fun acc x => acc ++ [g x]) acc = acc ++ l.map g by
    simpa using h []
  induction l with
  | nil => intro acc; simp
  | cons a t ih => intro acc; simp [List.foldl_cons, ih]

/-- Sum of a mapped `List.range` as a `Finset.range` sum. -/
theorem sum_list_range_map (g : ℕ → ℚ) (N : ℕ) :
    ((List.range N).map g).sum = ∑ n ∈ Finset.range N, g n := by
  induction N with
  | zero => simp
  | succ n ih => rw [List.range_succ]; simp [ih, Finset.sum_range_succ]

/-- The source's variance formula `mean(x * x) - mean(x) ^ 2` agrees with
the textbook population variance. -/
theorem f_signal_eq_specVariance (T : ℕ) (f : ℕ → ℚ) :
    f_signal T f = specVariance T f := by
  rcases Nat.eq_zero_or_pos T with hT | hT
  · subst hT; simp [f_signal, specVariance, vmean]
  · have hT' : (T : ℚ) ≠ 0 := Nat.cast_ne_zero.mpr hT.ne'
    unfold f_signal specVariance vmean
    set c : ℚ := (∑ s ∈ Finset.range T, f s) / T with hc
    have h1 : ∀ t ∈ Finset.range T, (f t - c) ^ 2 = f t * f t - 2 * c * f t + c ^ 2 :=
      fun t _ => by ring
    rw [Finset.sum_congr rfl h1, Finset.sum_add_distrib, Finset.sum_sub_distrib,
        ← Finset.mul_sum, Finset.sum_const, Finset.card_range, nsmul_eq_mul, hc]
    field_simp
    ring

/-- C8: `voltage_fluctuation` equals, for both evaluation strategies, the
spec formula: variance of the population average over the mean per-neuron
variance, defined as 1 when the latter is exactly 0. -/
theorem voltage_fluctuation_matches_spec (method : CCMethod) (V : ℕ → ℕ → ℚ) (T N : ℕ) :
    voltage_fluctuation method V T N = specVoltageFluctuation V T N := by
  have hlist : ((List.range N).map (fun n => f_signal T (fun t => V t n))).sum
      = ∑ n ∈ Finset.range N, specVariance T (fun t => V t n) := by
    rw [sum_list_range_map]
    exact Finset.sum_congr rfl (fun n _ => f_signal_eq_specVariance T _)
  have hlen : ((List.range N).map (fun n => f_signal T (fun t => V t n))).length = N := by
    simp
  have havg : vmean T (fun t => popAvg V N t * popAvg V N t) - vmean T (popAvg V N) ^ 2
      = specVariance T (popAvg V N) := f_signal_eq_specVariance T (popAvg V N)
  cases method <;>
    simp only [voltage_fluctuation, specVoltageFluctuation, foldl_append_eq_map,
      hlist, hlen, havg]

/-- C3: the sequential `loop` strategy and the vectorized `vmap` strategy
of `cross_correlation` return the same value on every input. -/
theorem cross_correlation_loop_eq_vmap (sq : ℚ → ℚ) (spikes : ℕ → ℕ → ℚ)
    (T N : ℕ) (bin dt : ℚ) :
    cross_correlation CCMethod.loop sq spikes T N bin dt
      = cross_correlation CCMethod.vmap sq spikes T N bin dt := by
  simp only [cross_correlation, foldl_append_eq_map]

/-- Summing over the lower-triangle pair Finset is a double sum. -/
theorem pairsFinset_sum {M : Type} [AddCommMonoid M] (N : ℕ) (f : ℕ × ℕ → M) :
    ∑ p ∈ pairsFinset N, f p = ∑ i ∈ Finset.range N, ∑ j ∈ Finset.range i, f (i, j) := by
  unfold pairsFinset
  rw [Finset.sum_filter, Finset.sum_product]
  refine Finset.sum_congr rfl (fun i hi => ?_)
  rw [← Finset.sum_filter]
  refine Finset.sum_congr ?_ (fun j _ => rfl)
  ext j
  simp only [Finset.mem_filter, Finset.mem_range]
  exact ⟨fun h => h.2, fun h => ⟨h.trans (Finset.mem_range.mp hi), h⟩⟩

/-- The row-major tril list enumerates the lower-triangle Finset: sums agree. -/
theorem trilPairs_map_sum (N : ℕ) (f : ℕ × ℕ → ℚ) :
    ((trilPairs N).map f).sum = ∑ p ∈ pairsFinset N, f p := by
  rw [pairsFinset_sum]
  unfold trilPairs
  induction N with
  | zero => simp
  | succ n ih =>
      rw [List.range_succ, List.flatMap_append, List.map_append, List.sum_append, ih,
          Finset.sum_range_succ]
      congr 1
      simp only [List.flatMap_cons, List.flatMap_nil, List.append_nil, List.map_map]
      exact sum_list_range_map _ n

/-- The tril list has as many entries as the lower-triangle Finset. -/
theorem trilPairs_length (N : ℕ) : (trilPairs N).length = (pairsFinset N).card := by
  have hl : (trilPairs N).length = ∑ i ∈ Finset.range N, i := by
    unfold trilPairs
    induction N with
    | zero => simp
    | succ n ih =>
        rw [List.range_succ, List.flatMap_append, List.length_append, ih,
            Finset.sum_range_succ]
        simp
  have hc : (pairsFinset N).card = ∑ i ∈ Finset.range N, i := by
    rw [Finset.card_eq_sum_ones, pairsFinset_sum]
    simp
  rw [hc, hl]

/-- `int(ceil(T / bs))` agrees with the pad-to-a-multiple bin count. -/
theorem ceil_div_toNat_eq_specNumBins (T bs : ℕ) (h : 1 ≤ bs) :
    (⌈(T : ℚ) / (bs : ℚ)⌉).toNat = specNumBins T bs := by
  have hbs0 : 0 < bs := h
  have hbsQ : (0 : ℚ) < (bs : ℚ) := by exact_mod_cast hbs0
  by_cases hdvd : bs ∣ T
  · obtain ⟨k, hk⟩ := hdvd
    subst hk
    have hq : ((bs * k : ℕ) : ℚ) / (bs : ℚ) = (k : ℚ) := by
      push_cast
      rw [mul_comm]
      exact mul_div_cancel_right₀ (k : ℚ) hbsQ.ne'
    rw [hq, Int.ceil_natCast, Int.toNat_natCast, specNumBins, if_pos ⟨k, rfl⟩,
        Nat.mul_div_cancel_left k hbs0]
  · have hmod := Nat.div_add_mod T bs
    have hrpos : 0 < T % bs := Nat.pos_of_ne_zero (fun h0 => hdvd (Nat.dvd_of_mod_eq_zero h0))
    have hrlt : T % bs < bs := Nat.mod_lt T hbs0
    have hlt : T / bs * bs < T := by
      calc T / bs * bs = bs * (T / bs) := mul_comm _ _
        _ < bs * (T / bs) + T % bs := Nat.lt_add_of_pos_right hrpos
        _ = T := hmod
    have hle : T ≤ (T / bs + 1) * bs := by
      calc T = bs * (T / bs) + T % bs := hmod.symm
        _ ≤ bs * (T / bs) + bs := Nat.add_le_add_left hrlt.le _
        _ = (T / bs + 1) * bs := by ring
    have hceil : ⌈(T : ℚ) / (bs : ℚ)⌉ = ((T / bs + 1 : ℕ) : ℤ) := by
      have hcast : (((T / bs + 1 : ℕ) : ℤ) : ℚ) = ((T / bs : ℕ) : ℚ) + 1 := by
        rw [Int.cast_natCast, Nat.cast_add, Nat.cast_one]
      rw [Int.ceil_eq_iff]
      refine ⟨?_, ?_⟩
      · rw [hcast]
        have hq1 : ((T / bs : ℕ) : ℚ) < (T : ℚ) / (bs : ℚ) := by
          rw [lt_div_iff₀ hbsQ]
          exact_mod_cast hlt
        linarith
      · rw [hcast, div_le_iff₀ hbsQ]
        calc (T : ℚ) ≤ (((T / bs + 1) * bs : ℕ) : ℚ) := by exact_mod_cast hle
          _ = (((T / bs : ℕ) : ℚ) + 1) * (bs : ℚ) := by push_cast; ring
    rw [hceil, Int.toNat_natCast, specNumBins, if_neg hdvd]

/-- The padded-and-reshaped bin sum equals the truncated-window sum over
the unpadded matrix. -/
theorem binnedSum_eq_window (spikes : ℕ → ℕ → ℚ) (T bs n b : ℕ) :
    binnedSum spikes T bs n b
      = ∑ t ∈ Finset.Ico (b * bs) (min ((b + 1) * bs) T), spikes t n := by
  have h1 : binnedSum spikes T bs n b
      = ∑ t ∈ Finset.Ico (b * bs) (b * bs + bs), (if t < T then spikes t n else 0) := by
    rw [Finset.sum_Ico_eq_sum_range]
    simp only [Nat.add_sub_cancel_left]
    rfl
  rw [h1, ← Finset.sum_filter, Finset.Ico_filter_lt, Nat.succ_mul]

/-- Binarized binned activity from the padded reshape equals the spec's
window formulation. -/
theorem binnedAct_eq_specBinned (spikes : ℕ → ℕ → ℚ) (T bs n b : ℕ) :
    binnedAct spikes T bs n b = specBinned spikes T bs n b := by
  unfold binnedAct specBinned
  rw [binnedSum_eq_window]

/-- The pair coherence is symmetric in its two neurons. -/
theorem pairCC_comm (sq : ℚ → ℚ) (spikes : ℕ → ℕ → ℚ) (T bs nb i j : ℕ) :
    pairCC sq spikes T bs nb i j = pairCC sq spikes T bs nb j i := by
  have hdot : (∑ b ∈ Finset.range nb, binnedAct spikes T bs i b * binnedAct spikes T bs j b)
      = ∑ b ∈ Finset.range nb, binnedAct spikes T bs j b * binnedAct spikes T bs i b :=
    Finset.sum_congr rfl (fun b _ => mul_comm _ _)
  simp only [pairCC]
  rw [mul_comm (∑ b ∈ Finset.range nb, binnedAct spikes T bs i b)
      (∑ b ∈ Finset.range nb, binnedAct spikes T bs j b), hdot]

/-- C1: for valid bin parameters (`0 < dt ≤ bin`), `cross_correlation`
computes exactly the spec pipeline: floor bin size, zero-padded binning,
binarization, guarded normalized dot products over all unordered pairs
`i > j`, averaged. -/
theorem cross_correlation_matches_spec (method : CCMethod) (sq : ℚ → ℚ)
    (spikes : ℕ → ℕ → ℚ) (T N : ℕ) (bin dt : ℚ)
    (hdt : 0 < dt) (hbin : dt ≤ bin) :
    cross_correlation method sq spikes T N bin dt
      = specCrossCorrelation sq spikes T N bin dt := by
  have h1 : (1 : ℚ) ≤ bin / dt := (one_le_div hdt).mpr hbin
  have h2 : (1 : ℤ) ≤ ⌊bin / dt⌋ := Int.le_floor.mpr (by exact_mod_cast h1)
  have hbs : 1 ≤ (⌊bin / dt⌋).toNat := by omega
  have hnb := ceil_div_toNat_eq_specNumBins T (⌊bin / dt⌋).toNat hbs
  cases method <;>
  · simp only [cross_correlation, specCrossCorrelation, foldl_append_eq_map,
      trilPairs_map_sum, List.length_map, trilPairs_length, hnb]
    congr 1
    refine Finset.sum_congr rfl (fun p _ => ?_)
    simp only [pairCC, binnedAct_eq_specBinned]

/-- Witness for C1 at a concrete 3-step, 2-neuron spike matrix with
`bin = 2`, `dt = 1`. -/
theorem cross_correlation_matches_spec_witness :
    (0 : ℚ) < 1 ∧ (1 : ℚ) ≤ 2 ∧
    cross_correlation CCMethod.loop (fun q => q)
        (fun t n => if t = n then 1 else 0) 3 2 2 1
      = specCrossCorrelation (fun q => q) (fun t n => if t = n then 1 else 0) 3 2 2 1 :=
  ⟨by norm_num, by norm_num,
   cross_correlation_matches_spec CCMethod.loop (fun q => q)
     (fun t n => if t = n then 1 else 0) 3 2 2 1 (by norm_num) (by norm_num)⟩

/-- A zero bin-count sum forces every binarized bin of that neuron to 0. -/
theorem binnedAct_all_zero (spikes : ℕ → ℕ → ℚ) (T bs nb n : ℕ)
    (h : (∑ b ∈ Finset.range nb, binnedAct spikes T bs n b) = 0) :
    ∀ b ∈ Finset.range nb, binnedAct spikes T bs n b = 0 := by
  have hnn : ∀ b ∈ Finset.range nb, 0 ≤ binnedAct spikes T bs n b := by
    intro b _
    unfold binnedAct
    split <;> norm_num
  exact fun b hb => (Finset.sum_eq_zero_iff_of_nonneg hnn).mp h b hb

/-- A pair with a spikeless neuron contributes exactly 0, whatever the
square root returns. -/
theorem pairCC_zero_of_no_spikes (sq : ℚ → ℚ) (spikes : ℕ → ℕ → ℚ) (T bs nb i j : ℕ)
    (h : (∑ b ∈ Finset.range nb, binnedAct spikes T bs i b) = 0 ∨
         (∑ b ∈ Finset.range nb, binnedAct spikes T bs j b) = 0) :
    pairCC sq spikes T bs nb i j = 0 := by
  have hdot : (∑ b ∈ Finset.range nb, binnedAct spikes T bs i b * binnedAct spikes T bs j b) = 0 := by
    rcases h with h | h
    · exact Finset.sum_eq_zero fun b hb => by
        rw [binnedAct_all_zero spikes T bs nb i h b hb, zero_mul]
    · exact Finset.sum_eq_zero fun b hb => by
        rw [binnedAct_all_zero spikes T bs nb j h b hb, mul_zero]
  simp only [pairCC]
  split
  · rfl
  · rw [hdot, zero_div]

/-- C2: pair values are 0 (never a division by zero) whenever the norm is 0
or a neuron has no binned spikes, and an all-zero spike matrix (with at
least one pair) yields `cross_correlation = 0`. -/
theorem cross_correlation_no_nan (sq : ℚ → ℚ) (T N bs nb : ℕ) (bin dt : ℚ)
    (method : CCMethod) :
    (∀ (spikes : ℕ → ℕ → ℚ) (i j : ℕ),
        sq ((∑ b ∈ Finset.range nb, binnedAct spikes T bs i b)
            * (∑ b ∈ Finset.range nb, binnedAct spikes T bs j b)) = 0 →
        pairCC sq spikes T bs nb i j = 0) ∧
    (∀ (spikes : ℕ → ℕ → ℚ) (i j : ℕ),
        (∑ b ∈ Finset.range nb, binnedAct spikes T bs i b) = 0 ∨
        (∑ b ∈ Finset.range nb, binnedAct spikes T bs j b) = 0 →
        pairCC sq spikes T bs nb i j = 0) ∧
    (∀ spikes : ℕ → ℕ → ℚ, (∀ t n, spikes t n = 0) → 2 ≤ N →
        cross_correlation method sq spikes T N bin dt = 0) := by
  refine ⟨?_, ?_, ?_⟩
  · intro spikes i j h
    simp only [pairCC, h, if_pos]
  · intro spikes i j h
    exact pairCC_zero_of_no_spikes sq spikes T bs nb i j h
  · intro spikes hall _
    have hact : ∀ bs' nb' n, (∑ b ∈ Finset.range nb', binnedAct spikes T bs' n b) = 0 := by
      intro bs' nb' n
      refine Finset.sum_eq_zero fun b _ => ?_
      unfold binnedAct binnedSum
      have hzero : (∑ k ∈ Finset.range bs',
          (if b * bs' + k < T then spikes (b * bs' + k) n else 0)) = 0 :=
        Finset.sum_eq_zero fun k _ => by rw [hall]; simp
      rw [hzero]
      norm_num
    cases method <;>
    · simp only [cross_correlation, foldl_append_eq_map]
      have hres : ∀ p ∈ trilPairs N,
          pairCC sq spikes T (⌊bin / dt⌋).toNat
            ((⌈(T : ℚ) / (((⌊bin / dt⌋).toNat : ℕ) : ℚ)⌉).toNat) p.1 p.2 = 0 := by
        intro p _
        exact pairCC_zero_of_no_spikes sq spikes T _ _ p.1 p.2 (Or.inl (hact _ _ p.1))
      rw [List.sum_eq_zero, zero_div]
      intro x hx
      rw [List.mem_map] at hx
      obtain ⟨p, hp, hpx⟩ := hx
      rw [← hpx]
      exact hres p hp

/-- Witness for C2 at a 2-neuron all-zero spike matrix, `bin = 2`, `dt = 1`. -/
theorem cross_correlation_no_nan_witness :
    pairCC (fun q => q) (fun _ _ => 0) 3 2 2 1 0 = 0 ∧
    cross_correlation CCMethod.loop (fun q => q) (fun _ _ => 0) 3 2 2 1 = 0 :=
  ⟨(cross_correlation_no_nan (fun q => q) 3 2 2 2 2 1 CCMethod.loop).2.1
      (fun _ _ => 0) 1 0 (Or.inl (by simp [binnedAct, binnedSum])),
   (cross_correlation_no_nan (fun q => q) 3 2 2 2 2 1 CCMethod.loop).2.2
      (fun _ _ => 0) (fun _ _ => rfl) (by norm_num)⟩

/-- For a symmetric pair function, the off-diagonal sum is twice the
lower-triangle sum. -/
theorem sum_offdiag_eq_two_mul (N : ℕ) (h : ℕ → ℕ → ℚ) (hsym : ∀ i j, h i j = h j i) :
    ∑ p ∈ (Finset.range N ×ˢ Finset.range N).filter (fun p => p.1 ≠ p.2), h p.1 p.2
      = 2 * ∑ p ∈ pairsFinset N, h p.1 p.2 := by
  classical
  have h1 : ((Finset.range N ×ˢ Finset.range N).filter (fun p => p.1 ≠ p.2)).filter
      (fun p : ℕ × ℕ => p.2 < p.1) = pairsFinset N := by
    rw [Finset.filter_filter]
    unfold pairsFinset
    refine Finset.filter_congr (fun p _ => ?_)
    exact ⟨fun hp => hp.2, fun hlt => ⟨ne_of_gt hlt, hlt⟩⟩
  have h2 : ((Finset.range N ×ˢ Finset.range N).filter (fun p => p.1 ≠ p.2)).filter
      (fun p : ℕ × ℕ => ¬ p.2 < p.1)
      = (Finset.range N ×ˢ Finset.range N).filter (fun p => p.1 < p.2) := by
    rw [Finset.filter_filter]
    refine Finset.filter_congr (fun p _ => ?_)
    exact ⟨fun hp => lt_of_le_of_ne (not_lt.mp hp.2) hp.1,
           fun hlt => ⟨ne_of_lt hlt, lt_asymm hlt⟩⟩
  have h3 : ∑ p ∈ (Finset.range N ×ˢ Finset.range N).filter (fun p => p.1 < p.2), h p.1 p.2
      = ∑ p ∈ pairsFinset N, h p.1 p.2 := by
    refine Finset.sum_nbij' (fun p => (p.2, p.1)) (fun p => (p.2, p.1)) ?_ ?_ ?_ ?_ ?_
    · intro p hp
      simp only [Finset.mem_filter, Finset.mem_product, Finset.mem_range, pairsFinset] at hp ⊢
      exact ⟨⟨hp.1.2, hp.1.1⟩, hp.2⟩
    · intro p hp
      simp only [Finset.mem_filter, Finset.mem_product, Finset.mem_range, pairsFinset] at hp ⊢
      exact ⟨⟨hp.1.2, hp.1.1⟩, hp.2⟩
    · intro p _; rfl
    · intro p _; rfl
    · intro p _; exact hsym p.1 p.2
  calc ∑ p ∈ (Finset.range N ×ˢ Finset.range N).filter (fun p => p.1 ≠ p.2), h p.1 p.2
      = ∑ p ∈ ((Finset.range N ×ˢ Finset.range N).filter (fun p => p.1 ≠ p.2)).filter
            (fun p : ℕ × ℕ => p.2 < p.1), h p.1 p.2
        + ∑ p ∈ ((Finset.range N ×ˢ Finset.range N).filter (fun p => p.1 ≠ p.2)).filter
            (fun p : ℕ × ℕ => ¬ p.2 < p.1), h p.1 p.2 :=
        (Finset.sum_filter_add_sum_filter_not _ _ _).symm
    _ = ∑ p ∈ pairsFinset N, h p.1 p.2 + ∑ p ∈ pairsFinset N, h p.1 p.2 := by
        rw [h1, h2, h3]
    _ = 2 * ∑ p ∈ pairsFinset N, h p.1 p.2 := by ring

/-- Relabeling both components by a permutation of `[0, N)` leaves the
off-diagonal sum unchanged. -/
theorem sum_offdiag_perm (N : ℕ) (h : ℕ → ℕ → ℚ) (σ : Equiv.Perm ℕ)
    (hσ : ∀ n, n < N → σ n < N) (hσ' : ∀ n, n < N → σ.symm n < N) :
    ∑ p ∈ (Finset.range N ×ˢ Finset.range N).filter (fun p => p.1 ≠ p.2), h (σ p.1) (σ p.2)
      = ∑ p ∈ (Finset.range N ×ˢ Finset.range N).filter (fun p => p.1 ≠ p.2), h p.1 p.2 := by
  classical
  refine Finset.sum_nbij' (fun p => (σ p.1, σ p.2)) (fun p => (σ.symm p.1, σ.symm p.2))
    ?_ ?_ ?_ ?_ ?_
  · intro p hp
    simp only [Finset.mem_filter, Finset.mem_product, Finset.mem_range] at hp ⊢
    exact ⟨⟨hσ _ hp.1.1, hσ _ hp.1.2⟩, fun he => hp.2 (σ.injective he)⟩
  · intro p hp
    simp only [Finset.mem_filter, Finset.mem_product, Finset.mem_range] at hp ⊢
    exact ⟨⟨hσ' _ hp.1.1, hσ' _ hp.1.2⟩, fun he => hp.2 (σ.symm.injective he)⟩
  · intro p _
    simp
  · intro p _
    simp
  · intro p _
    rfl

/-- Summing a symmetric pair function over the lower triangle is invariant
under relabeling by a permutation of `[0, N)`. -/
theorem sum_pairs_perm (N : ℕ) (h : ℕ → ℕ → ℚ) (σ : Equiv.Perm ℕ)
    (hσ : ∀ n, n < N → σ n < N) (hσ' : ∀ n, n < N → σ.symm n < N)
    (hsym : ∀ i j, h i j = h j i) :
    ∑ p ∈ pairsFinset N, h (σ p.1) (σ p.2) = ∑ p ∈ pairsFinset N, h p.1 p.2 := by
  have e1 := sum_offdiag_eq_two_mul N (fun i j => h (σ i) (σ j)) (fun i j => hsym _ _)
  have e2 := sum_offdiag_eq_two_mul N h hsym
  have e3 := sum_offdiag_perm N h σ hσ hσ'
  have htwo : 2 * ∑ p ∈ pairsFinset N, h (σ p.1) (σ p.2)
      = 2 * ∑ p ∈ pairsFinset N, h p.1 p.2 := by
    rw [← e1, e3, e2]
  exact mul_left_cancel₀ two_ne_zero htwo

/-- C7: permuting the neuron columns of the spike matrix leaves
`cross_correlation` unchanged. -/
theorem cross_correlation_perm_invariant (method : CCMethod) (sq : ℚ → ℚ)
    (spikes : ℕ → ℕ → ℚ) (T N : ℕ) (bin dt : ℚ) (σ : Equiv.Perm ℕ)
    (hσ : ∀ n, n < N → σ n < N) (hσ' : ∀ n, n < N → σ.symm n < N) :
    cross_correlation method sq (fun t n => spikes t (σ n)) T N bin dt
      = cross_correlation method sq spikes T N bin dt := by
  cases method <;>
  · simp only [cross_correlation, foldl_append_eq_map, trilPairs_map_sum, List.length_map,
      trilPairs_length]
    congr 1
    exact sum_pairs_perm N
      (fun i j => pairCC sq spikes T (⌊bin / dt⌋).toNat
        ((⌈(T : ℚ) / (((⌊bin / dt⌋).toNat : ℕ) : ℚ)⌉).toNat) i j)
      σ hσ hσ'
      (fun i j => pairCC_comm sq spikes T _ _ i j)

/-- Witness for C7: swapping the two neurons of a concrete 2-neuron spike
matrix leaves the index unchanged. -/
theorem cross_correlation_perm_invariant_witness :
    cross_correlation CCMethod.loop (fun q => q)
        (fun t n => (fun t' n' => if t' + n' = 1 then (1 : ℚ) else 0) t ((Equiv.swap 0 1) n))
        2 2 2 1
      = cross_correlation CCMethod.loop (fun q => q)
        (fun t' n' => if t' + n' = 1 then (1 : ℚ) else 0) 2 2 2 1 :=
  cross_correlation_perm_invariant CCMethod.loop (fun q => q)
    (fun t' n' => if t' + n' = 1 then (1 : ℚ) else 0) 2 2 2 1 (Equiv.swap 0 1)
    (by decide) (by decide)

theorem except_bind_ok {α β : Type} (a : α) (f : α → Except String β) :
    (Except.ok a >>= f : Except String β) = f a := rfl

theorem except_bind_error {α β : Type} (e : String) (f : α → Except String β) :
    (Except.error e >>= f : Except String β) = Except.error e := rfl

theorem except_map_ok {α β : Type} (a : α) (f : α → β) :
    (Except.ok a : Except String α).map f = Except.ok (f a) := rfl

theorem except_fmap_ok {α β : Type} (a : α) (f : α → β) :
    (f <$> (Except.ok a : Except String α)) = Except.ok (f a) := rfl

theorem bcast2_eq_zipWith (op : ℚ → ℚ → ℚ) (a b : List ℚ) (h : a.length = b.length) :
    bcast2 op a b = Except.ok (List.zipWith op a b) := by
  unfold bcast2
  rw [if_pos h]

theorem bcast2_error_of (op : ℚ → ℚ → ℚ) (a b : List ℚ) (hab : a.length ≠ b.length)
    (ha : a.length ≠ 1) (hb : b.length ≠ 1) :
    bcast2 op a b = Except.error "operands could not be broadcast together" := by
  unfold bcast2
  rw [if_neg hab, if_neg ha, if_neg hb]

theorem weighted_mean_ok (x w : List ℚ) (h : x.length = w.length) :
    weighted_mean x w = Except.ok ((List.zipWith (· * ·) x w).sum / w.sum) := by
  unfold weighted_mean
  rw [bcast2_eq_zipWith _ _ _ h]
  rfl

theorem weighted_mean_error (x w : List ℚ) (hab : x.length ≠ w.length)
    (ha : x.length ≠ 1) (hb : w.length ≠ 1) :
    weighted_mean x w = Except.error "operands could not be broadcast together" := by
  unfold weighted_mean
  rw [bcast2_error_of _ _ _ hab ha hb]
  rfl

/-- A broadcast failure in `x * w` propagates out of `weighted_cov`. -/
theorem weighted_cov_error_left (x y w : List ℚ) (hxw : x.length ≠ w.length)
    (hx1 : x.length ≠ 1) (hw1 : w.length ≠ 1) :
    weighted_cov x y w = Except.error "operands could not be broadcast together" := by
  unfold weighted_cov
  rw [weighted_mean_error x w hxw hx1 hw1]
  simp only [except_bind_error]

/-- A broadcast failure in `y * w` propagates out of `weighted_cov`. -/
theorem weighted_cov_error_right (x y w : List ℚ) (hxw : x.length = w.length)
    (hyw : y.length ≠ w.length) (hy1 : y.length ≠ 1) (hw1 : w.length ≠ 1) :
    weighted_cov x y w = Except.error "operands could not be broadcast together" := by
  unfold weighted_cov
  rw [weighted_mean_ok x w hxw]
  simp only [except_bind_ok]
  rw [bcast2_eq_zipWith (· * ·) w
    (x.map (fun v => v - (List.zipWith (· * ·) x w).sum / w.sum)) (by simp [hxw])]
  simp only [except_bind_ok]
  rw [weighted_mean_error y w hyw hy1 hw1]
  simp only [except_bind_error]

/-- C5 counterexample: with `x`, `y` of length 3 and a length-1 weight
vector — lengths not all equal — `weighted_correlation` raises no error:
the weight broadcasts and the function returns `50 / sqrt(50 * 50) = 1`
(the square root is instantiated by `ratSqrt`, which agrees with the real
square root at the one consulted point, `2500`). -/
theorem weighted_correlation_no_length_check :
    weighted_correlation ratSqrt [1, 2, 3] [1, 2, 3] [5] = Except.ok 1 := by
  have h2500 : Nat.sqrt 2500 = 50 := by
    rw [show (2500 : ℕ) = 50 * 50 by norm_num]
    exact Nat.sqrt_eq 50
  have h50 : ratSqrt 2500 = 50 := by
    unfold ratSqrt
    norm_num [show Int.toNat 2500 = 2500 from rfl, h2500]
  norm_num [weighted_correlation, weighted_cov, weighted_mean, bcast2,
    except_bind_ok, except_map_ok, except_fmap_ok, h50]

/-- C5 amended: only lengths that are broadcast-incompatible (all lengths
at least 2 and not all equal) raise a shape error. -/
theorem weighted_correlation_mismatch_error (sq : ℚ → ℚ) (x y w : List ℚ)
    (hx : 2 ≤ x.length) (hy : 2 ≤ y.length) (hw : 2 ≤ w.length)
    (hne : ¬ (x.length = y.length ∧ x.length = w.length)) :
    ∃ msg, weighted_correlation sq x y w = Except.error msg := by
  refine ⟨"operands could not be broadcast together", ?_⟩
  unfold weighted_correlation
  by_cases hxw : x.length = w.length
  · have hxy : x.length ≠ y.length := fun hc => hne ⟨hc, hxw⟩
    have hyw : y.length ≠ w.length := fun hc => hxy (hxw.trans hc.symm)
    rw [weighted_cov_error_right x y w hxw hyw (by omega) (by omega)]
    simp only [except_bind_error]
  · rw [weighted_cov_error_left x y w hxw (by omega) (by omega)]
    simp only [except_bind_error]

/-- Witness for the amended C5 at `x = [1,2,3]`, `y = [1,2]`, `w = [1,2,3]`. -/
theorem weighted_correlation_mismatch_error_witness :
    (2 ≤ ([1, 2, 3] : List ℚ).length ∧ 2 ≤ ([1, 2] : List ℚ).length ∧
     2 ≤ ([1, 2, 3] : List ℚ).length ∧
     ¬ (([1, 2, 3] : List ℚ).length = ([1, 2] : List ℚ).length ∧
        ([1, 2, 3] : List ℚ).length = ([1, 2, 3] : List ℚ).length)) ∧
    ∃ msg, weighted_correlation (fun q => q) [1, 2, 3] [1, 2] [1, 2, 3] = Except.error msg :=
  ⟨⟨by decide, by decide, by decide, by decide⟩,
   weighted_correlation_mismatch_error (fun q => q) [1, 2, 3] [1, 2] [1, 2, 3]
     (by decide) (by decide) (by decide) (by decide)⟩

theorem zipWith_mul_replicate_right (c : ℚ) (l : List ℚ) (n : ℕ) (h : l.length = n) :
    List.zipWith (· * ·) l (List.replicate n c) = l.map (fun a => a * c) := by
  induction l generalizing n with
  | nil => simp
  | cons a t ih =>
      cases n with
      | zero => simp at h
      | succ m => simp [List.replicate_succ, ih m (by simpa using h)]

theorem zipWith_mul_replicate_left (c : ℚ) (l : List ℚ) (n : ℕ) (h : l.length = n) :
    List.zipWith (· * ·) (List.replicate n c) l = l.map (fun a => c * a) := by
  induction l generalizing n with
  | nil => simp
  | cons a t ih =>
      cases n with
      | zero => simp at h
      | succ m => simp [List.replicate_succ, ih m (by simpa using h)]

theorem sum_map_mul_const (c : ℚ) (l : List ℚ) :
    (l.map (fun a => a * c)).sum = l.sum * c := by
  induction l with
  | nil => simp
  | cons a t ih => simp [ih]; ring

theorem sum_zipWith_shift (c mX mY : ℚ) (x y : List ℚ) :
    (List.zipWith (· * ·) (x.map (fun a => c * (a - mX))) (y.map (fun b => b - mY))).sum
      = c * (List.zipWith (fun a b => (a - mX) * (b - mY)) x y).sum := by
  induction x generalizing y with
  | nil => simp
  | cons a t ih =>
      cases y with
      | nil => simp
      | cons b u =>
          simp only [List.map_cons, List.zipWith_cons_cons, List.sum_cons, ih]
          ring

/-- With a constant positive weight vector, the weighted covariance is the
plain population covariance. -/
theorem weighted_cov_replicate (x y : List ℚ) (n : ℕ) (c : ℚ)
    (hx : x.length = n) (hy : y.length = n) (hc : c ≠ 0) :
    weighted_cov x y (List.replicate n c) = Except.ok (sampleCov x y) := by
  have hsum_w : (List.replicate n c).sum = (n : ℚ) * c := by
    simp [List.sum_replicate, nsmul_eq_mul]
  have hmean : ∀ (l : List ℚ), l.length = n →
      (List.zipWith (· * ·) l (List.replicate n c)).sum / (List.replicate n c).sum
        = listMean l := by
    intro l hl
    rw [zipWith_mul_replicate_right c l n hl, hsum_w, sum_map_mul_const,
        mul_div_mul_right _ _ hc, listMean, hl]
  unfold weighted_cov
  rw [weighted_mean_ok x _ (by simp [hx]), hmean x hx]
  simp only [except_bind_ok]
  rw [bcast2_eq_zipWith (· * ·) (List.replicate n c) (x.map (fun v => v - listMean x))
    (by simp [hx])]
  simp only [except_bind_ok]
  rw [weighted_mean_ok y _ (by simp [hy]), hmean y hy]
  simp only [except_bind_ok]
  rw [bcast2_eq_zipWith (· * ·) _ (y.map (fun v => v - listMean y))
    (by simp [hx, hy])]
  simp only [except_bind_ok]
  rw [zipWith_mul_replicate_left c _ n (by simp [hx])]
  simp only [List.map_map, Function.comp_def]
  rw [sum_zipWith_shift c (listMean x) (listMean y) x y, hsum_w]
  rw [mul_comm c (List.zipWith (fun a b => (a - listMean x) * (b - listMean y)) x y).sum,
      mul_div_mul_right _ _ hc]
  unfold sampleCov
  rw [hx]
  rfl

/-- C6: with a uniform positive weight vector, `weighted_correlation`
returns exactly the unweighted Pearson correlation coefficient. -/
theorem weighted_correlation_uniform (sq : ℚ → ℚ) (x y : List ℚ) (n : ℕ) (c : ℚ)
    (hx : x.length = n) (hy : y.length = n) (hc : 0 < c) :
    weighted_correlation sq x y (List.replicate n c) = Except.ok (pearson sq x y) := by
  have hc' : c ≠ 0 := ne_of_gt hc
  unfold weighted_correlation
  rw [weighted_cov_replicate x y n c hx hy hc']
  simp only [except_bind_ok]
  rw [weighted_cov_replicate x x n c hx hx hc']
  simp only [except_bind_ok]
  rw [weighted_cov_replicate y y n c hy hy hc']
  simp only [except_bind_ok]
  rfl

/-- Witness for C6 at `x = [1, 2]`, `y = [2, 1]`, weights `[3, 3]`. -/
theorem weighted_correlation_uniform_witness :
    (([1, 2] : List ℚ).length = 2 ∧ ([2, 1] : List ℚ).length = 2 ∧ (0 : ℚ) < 3) ∧
    weighted_correlation (fun q => q) [1, 2] [2, 1] (List.replicate 2 3)
      = Except.ok (pearson (fun q => q) [1, 2] [2, 1]) :=
  ⟨⟨rfl, rfl, by norm_num⟩,
   weighted_correlation_uniform (fun q => q) [1, 2] [2, 1] 2 3 rfl rfl (by norm_num)⟩

end Braintools
